import Mathlib

/-!
Verification development for the browser-db query/transaction layer.

The definitions below are a shallow embedding of the TypeScript sources:
  - `src/query.ts`      (condition translator, query plan builder, executor)
  - `src/readChain.ts`  (read transaction chain)
  - `src/writeChain.ts` (write transaction chain)
  - `src/utils.ts`      (promisifyTransaction completion bridge)
The host storage engine (IndexedDB) is external to the repository; where its
behaviour is needed (key ordering, range membership, cursor iteration) it is
modelled explicitly and marked as a host-engine model.
-/

namespace BrowserDB

/-- Host-engine model: an IndexedDB key.  Real IDB keys are numbers, dates,
strings or arrays; numbers sort before strings.  We model the two kinds the
library's claims exercise. -/
inductive Key where
  | num (n : Int)
  | str (s : String)
deriving DecidableEq, Repr

/-- Host-engine model: the IDB key ordering restricted to `Key`
(every number sorts before every string). -/
def Key.le : Key → Key → Bool
  | .num a, .num b => a ≤ b
  | .num _, .str _ => true
  | .str _, .num _ => false
  | .str a, .str b => a ≤ b

/-- Embedding of the native `IDBKeyRange` bound descriptor:
`{lower, upper, lowerOpen, upperOpen}` with `none` for an unbounded side. -/
structure KeyRange where
  lower : Option Key
  upper : Option Key
  lowerOpen : Bool
  upperOpen : Bool
deriving DecidableEq, Repr

/-- Embedding of `IDBKeyRange.only(v)`: the single-value form `[v, v]`. -/
def KeyRange.only (v : Key) : KeyRange := ⟨some v, some v, false, false⟩

/-- Embedding of `IDBKeyRange.lowerBound(v, open)`: lower bound only. -/
def KeyRange.lowerBound (v : Key) (isOpen : Bool) : KeyRange :=
  ⟨some v, none, isOpen, true⟩

/-- Embedding of `IDBKeyRange.upperBound(v, open)`: upper bound only. -/
def KeyRange.upperBound (v : Key) (isOpen : Bool) : KeyRange :=
  ⟨none, some v, true, isOpen⟩

/-- Embedding of `IDBKeyRange.bound(lower, upper, lowerOpen, upperOpen)`. -/
def KeyRange.bound (lo hi : Key) (loOpen hiOpen : Bool) : KeyRange :=
  ⟨some lo, some hi, loOpen, hiOpen⟩

/-- Host-engine model: whether a key falls inside a bound descriptor. -/
def KeyRange.matchesKey (r : KeyRange) (k : Key) : Bool :=
  (match r.lower with
   | none => true
   | some l => if r.lowerOpen then Key.le l k && !(k = l) else Key.le l k) &&
  (match r.upper with
   | none => true
   | some u => if r.upperOpen then Key.le k u && !(k = u) else Key.le k u)

/-- Host-engine model: the records of a source that match an optional range,
in the source's (ascending) order.  `none` means an unbounded scan. -/
def rangeFilter {α : Type} (range : Option KeyRange) (entries : List (Key × α)) :
    List (Key × α) :=
  match range with
  | none => entries
  | some r => entries.filter (fun e => r.matchesKey e.1)

/-- Embedding of `WhereCondition<T>` from `src/query.ts`: a duck-typed object
whose optional comparison fields drive the translator. -/
structure WhereCondition where
  eq : Option Key := none
  gt : Option Key := none
  gte : Option Key := none
  lt : Option Key := none
  lte : Option Key := none
  between : Option (Key × Key) := none
  startsWith : Option String := none
deriving DecidableEq, Repr

/-- The argument of `parseWhereCondition`: either a bare primitive value
(shorthand for equality) or a condition object. -/
inductive CondInput where
  | prim (v : Key)
  | obj (c : WhereCondition)
deriving DecidableEq, Repr

/-- Embedding of `parseWhereCondition` (src/query.ts lines 416-459): the nested
`if` chain becomes a first-match-wins pattern match in the same order. -/
def parseWhereCondition : CondInput → Option KeyRange
  | .prim v => some (KeyRange.only v)
  | .obj c =>
    match c.eq, c.between, c.startsWith, c.gt, c.gte, c.lt, c.lte with
    | some v, _, _, _, _, _, _ => some (KeyRange.only v)
    | none, some (lo, hi), _, _, _, _, _ => some (KeyRange.bound lo hi false false)
    | none, none, some p, _, _, _, _ =>
        some (KeyRange.bound (.str p) (.str (p ++ "\uFFFF")) false false)
    | none, none, none, _, some a, _, some b => some (KeyRange.bound a b false false)
    | none, none, none, some a, _, some b, _ => some (KeyRange.bound a b true true)
    | none, none, none, _, some a, some b, _ => some (KeyRange.bound a b false true)
    | none, none, none, some a, _, _, some b => some (KeyRange.bound a b true false)
    | none, none, none, some a, _, _, _ => some (KeyRange.lowerBound a true)
    | none, none, none, _, some a, _, _ => some (KeyRange.lowerBound a false)
    | none, none, none, _, _, some a, _ => some (KeyRange.upperBound a true)
    | none, none, none, _, _, _, some a => some (KeyRange.upperBound a false)
    | none, none, none, none, none, none, none => none

example : parseWhereCondition (.obj { gte := some (.num 1), lte := some (.num 5) })
    = some (KeyRange.bound (.num 1) (.num 5) false false) := by decide

example : parseWhereCondition (.obj { startsWith := some "ab" })
    = some (KeyRange.bound (.str "ab") (.str ("ab" ++ "\uFFFF")) false false) := by
  decide

example : parseWhereCondition (.obj {}) = none := by decide

/-- Embedding of `SortOrder` (`'asc' | 'desc'`). -/
inductive SortOrder where
  | asc
  | desc
deriving DecidableEq, Repr

/-- Embedding of the internal `QueryState` of `src/query.ts` (lines 105-113):
the per-record payload type is a parameter `α`. -/
structure QueryState where
  indexName : Option String
  useKey : Bool
  range : Option KeyRange
  order : SortOrder
  limitCount : Option Nat
  offsetCount : Nat
deriving DecidableEq, Repr

/-- Embedding of the state held by `IndexQueryBuilderImpl` (src/query.ts
lines 261-268): a chosen index (or primary key) before a range is selected. -/
structure IndexBuilderState where
  indexName : Option String
  useKey : Bool
deriving DecidableEq, Repr

/-- Embedding of `IndexQueryBuilderImpl.createFinal` (lines 270-283). -/
def createFinal (b : IndexBuilderState) (range : Option KeyRange) : QueryState :=
  { indexName := b.indexName
    useKey := b.useKey
    range := range
    order := .asc
    limitCount := none
    offsetCount := 0 }

/-- Embedding of `IndexQueryBuilderImpl.equals` (lines 285-287). -/
def equalsSel (b : IndexBuilderState) (v : Key) : QueryState :=
  createFinal b (some (KeyRange.only v))

/-- Embedding of `IndexQueryBuilderImpl.startsWith` (lines 309-311). -/
def startsWithSel (b : IndexBuilderState) (p : String) : QueryState :=
  createFinal b (some (KeyRange.bound (.str p) (.str (p ++ "\uFFFF")) false false))

/-- Embedding of `FinalQueryBuilderImpl.orderBy` (lines 127-134). -/
def orderBySel (st : QueryState) (o : SortOrder) : QueryState := { st with order := o }

/-- Embedding of `FinalQueryBuilderImpl.limit` (lines 136-143). -/
def limitSel (st : QueryState) (n : Nat) : QueryState := { st with limitCount := some n }

/-- Embedding of `FinalQueryBuilderImpl.offset` (lines 145-152). -/
def offsetSel (st : QueryState) (n : Nat) : QueryState := { st with offsetCount := n }

/-- Host-engine model: the ascending `(indexKey, record)` sequences the engine
exposes for the primary store and for each named secondary index. -/
structure QEngine (α : Type) where
  storeEntries : List (Key × α)
  indexEntries : String → List (Key × α)

/-- The source the executor scans: `store.index(name)` when an index was
chosen, else the store itself (src/query.ts lines 174-179 and 200, 237). -/
def sourceEntries {α : Type} (st : QueryState) (eng : QEngine α) : List (Key × α) :=
  match st.indexName with
  | some i => eng.indexEntries i
  | none => eng.storeEntries

/-- The records the engine yields for the plan's bound, ascending. -/
def matchingRecords {α : Type} (st : QueryState) (eng : QEngine α) : List α :=
  (rangeFilter st.range (sourceEntries st eng)).map Prod.snd

/-- Per-record default overlay (`hasDefaults ? { ...defaults, ...value } :
value`): the object merge is abstracted as an optional record transformer. -/
def applyDefaults {α : Type} (defaults : Option (α → α)) (v : α) : α :=
  match defaults with
  | some f => f v
  | none => v

/-- Embedding of the cursor `onsuccess` loop of `executeQuery` (src/query.ts
lines 204-232): `entries` is the direction-ordered record stream the cursor
walks; `skipped`/`collected` are the loop counters; `off`/`lim` are the plan's
`offsetCount`/`limitCount`.  Returns the collected results together with the
number of cursor records visited. -/
def cursorLoop {α : Type} (f : α → α) :
    List α → Nat → Nat → Nat → Option Nat → List α × Nat
  | [], _, _, _, _ => ([], 0)
  | r :: rest, skipped, collected, off, lim =>
    if skipped < off then
      let p := cursorLoop f rest (skipped + 1) collected off lim
      (p.1, p.2 + 1)
    else
      let doCollect := match lim with
        | none => true
        | some l => collected < l
      let collected' := if doCollect then collected + 1 else collected
      let here := if doCollect then [f r] else []
      if (match lim with | some l => decide (l ≤ collected') | none => false) then
        (here, 1)
      else
        let p := cursorLoop f rest skipped collected' off lim
        (here ++ p.1, p.2 + 1)

/-- Embedding of `FinalQueryBuilderImpl.executeQuery` (src/query.ts
lines 186-258): cursor path when `offset > 0` or a limit is set, bulk
`getAll` path otherwise (with client-side reverse for descending order). -/
def executeQuery {α : Type} (st : QueryState) (defaults : Option (α → α))
    (eng : QEngine α) : List α :=
  let entries := matchingRecords st eng
  if 0 < st.offsetCount ∨ st.limitCount.isSome then
    let ordered := if st.order = .desc then entries.reverse else entries
    (cursorLoop (applyDefaults defaults) ordered 0 0 st.offsetCount st.limitCount).1
  else
    let results := match defaults with
      | some f => entries.map f
      | none => entries
    if st.order = .desc then results.reverse else results

/-- Embedding of `FinalQueryBuilderImpl.findAll` (lines 154-156). -/
def findAllQ {α : Type} (st : QueryState) (defaults : Option (α → α))
    (eng : QEngine α) : List α :=
  executeQuery st defaults eng

/-- Embedding of `FinalQueryBuilderImpl.find` (lines 158-166): re-run the
query with `limitCount := 1` and take the first result. -/
def findQ {α : Type} (st : QueryState) (defaults : Option (α → α))
    (eng : QEngine α) : Option α :=
  (executeQuery { st with limitCount := some 1 } defaults eng).head?

/-- Number of cursor records `find` visits: its execution always takes the
cursor path (the forced limit is set), so the count is the cursor loop's. -/
def findVisits {α : Type} (st : QueryState) (defaults : Option (α → α))
    (eng : QEngine α) : Nat :=
  let st' : QueryState := { st with limitCount := some 1 }
  let ordered := if st'.order = .desc then (matchingRecords st' eng).reverse
                 else matchingRecords st' eng
  (cursorLoop (applyDefaults defaults) ordered 0 0 st'.offsetCount st'.limitCount).2

/-- Embedding of `FinalQueryBuilderImpl.count` (src/query.ts lines 168-184):
one native count request over the state's index (or store) and range; the
host engine model answers with the number of matching entries. -/
def countQ {α : Type} (st : QueryState) (eng : QEngine α) : Nat :=
  (rangeFilter st.range (sourceEntries st eng)).length

/-! Transaction chains (`src/writeChain.ts`, `src/readChain.ts`).  The host
engine keeps, per store, a list of `(key, value)` records, plus explicit
per-store index views for `getAllByIndex`; record values are `Nat` (the
claims about the chains do not depend on the record payload shape). -/

/-- Embedding of the `WriteOperation` union of `src/writeChain.ts`
(lines 25-29). -/
inductive WriteOp where
  | put (storeName : String) (value : Nat) (key : Option Key)
  | add (storeName : String) (value : Nat) (key : Option Key)
  | del (storeName : String) (key : Key)
  | clear (storeName : String)
deriving DecidableEq, Repr

/-- The `op.storeName` projection used by the scope check. -/
def WriteOp.storeName : WriteOp → String
  | .put s _ _ => s
  | .add s _ _ => s
  | .del s _ => s
  | .clear s => s

/-- Embedding of the `ReadOperation` union of `src/readChain.ts`
(lines 25-29).  A bare-key query argument is the engine's `only` range. -/
inductive ReadOp where
  | get (storeName : String) (key : Key)
  | getAll (storeName : String) (query : Option KeyRange) (cnt : Option Nat)
  | getAllByIndex (storeName : String) (indexName : String) (query : Option KeyRange)
  | count (storeName : String) (query : Option KeyRange)
deriving DecidableEq, Repr

/-- The `op.storeName` projection used by the scope check. -/
def ReadOp.storeName : ReadOp → String
  | .get s _ => s
  | .getAll s _ _ => s
  | .getAllByIndex s _ _ => s
  | .count s _ => s

/-- The error surface of a chain: the scope-violation error thrown by
`execute()` (carrying the offending store and the declared scope, exactly the
data interpolated into its message), or an engine-reported request failure. -/
inductive ChainError where
  | scopeViolation (store : String) (scope : List String)
  | engineError (msg : String)
deriving DecidableEq, Repr

/-- Host-engine model: the connection state the chains run against. -/
structure DB where
  stores : List (String × List (Key × Nat))
  indexViews : List ((String × String) × List (Key × Nat))
deriving DecidableEq, Repr

/-- The records of one store (empty when the store does not exist). -/
def DB.storeRecords (db : DB) (s : String) : List (Key × Nat) :=
  ((db.stores.find? (fun e => e.1 = s)).map Prod.snd).getD []

/-- The entries of one secondary index view. -/
def DB.indexRecords (db : DB) (s i : String) : List (Key × Nat) :=
  ((db.indexViews.find? (fun e => e.1 = (s, i))).map Prod.snd).getD []

/-- Replace the records of one store. -/
def DB.setStore (db : DB) (s : String) (recs : List (Key × Nat)) : DB :=
  { db with stores :=
      if db.stores.any (fun e => e.1 = s) then
        db.stores.map (fun e => if e.1 = s then (s, recs) else e)
      else
        db.stores ++ [(s, recs)] }

/-- Host-engine model: key resolution for `put`/`add` with an optional
explicit key — the explicit key wins, else the engine derives one from the
record (modelled as the numeric value itself). -/
def resolveKey (value : Nat) (key : Option Key) : Key :=
  key.getD (.num (Int.ofNat value))

/-- Host-engine model: upsert used by `store.put`. -/
def upsert (recs : List (Key × Nat)) (k : Key) (v : Nat) : List (Key × Nat) :=
  if recs.any (fun e => e.1 = k) then
    recs.map (fun e => if e.1 = k then (k, v) else e)
  else
    recs ++ [(k, v)]

/-- Host-engine model: the effect of one queued write request on the
connection state; `add` on an existing key is the engine's constraint
failure, which aborts the whole transaction. -/
def applyWriteOp (db : DB) : WriteOp → Except String DB
  | .put s v k => .ok (db.setStore s (upsert (db.storeRecords s) (resolveKey v k) v))
  | .add s v k =>
      let key := resolveKey v k
      if (db.storeRecords s).any (fun e => e.1 = key) then
        .error "ConstraintError"
      else
        .ok (db.setStore s (db.storeRecords s ++ [(key, v)]))
  | .del s k => .ok (db.setStore s ((db.storeRecords s).filter (fun e => ¬ e.1 = k)))
  | .clear s => .ok (db.setStore s [])

/-- Issue every queued write against the open transaction, in enqueue order
(src/writeChain.ts lines 79-96); a request failure aborts the transaction. -/
def applyWriteOps (db : DB) : List WriteOp → Except String DB
  | [] => .ok db
  | op :: rest =>
    match applyWriteOp db op with
    | .ok db' => applyWriteOps db' rest
    | .error e => .error e

/-- The distinct referenced stores, in first-occurrence order — the embedding
of `[...new Set(operations.map((op) => op.storeName))]`. -/
def dedupFirst (seen : List String) : List String → List String
  | [] => []
  | a :: l =>
    if seen.contains a then dedupFirst seen l
    else a :: dedupFirst (a :: seen) l

instance {ε α : Type} [DecidableEq ε] [DecidableEq α] : DecidableEq (Except ε α) :=
  fun x y =>
    match x, y with
    | .ok a, .ok b =>
      if h : a = b then .isTrue (by rw [h]) else .isFalse (by simp [h])
    | .error a, .error b =>
      if h : a = b then .isTrue (by rw [h]) else .isFalse (by simp [h])
    | .ok _, .error _ => .isFalse (by simp)
    | .error _, .ok _ => .isFalse (by simp)

/-- Outcome of a write chain's `execute()`: the settlement, the connection
state afterwards, and how many transactions were opened on the engine. -/
structure WriteExecResult where
  outcome : Except ChainError Unit
  db : DB
  txOpened : Nat
deriving DecidableEq, Repr

/-- Embedding of the write chain's `execute()` (src/writeChain.ts
lines 61-99): empty-queue fast path, scope check over the distinct referenced
stores (throwing at the first offender), then one transaction that applies
every operation in order; an engine failure aborts it with no effect. -/
def writeExecute (scope : List String) (ops : List WriteOp) (db : DB) :
    WriteExecResult :=
  if ops.isEmpty then ⟨.ok (), db, 0⟩
  else
    let usedStores := dedupFirst [] (ops.map WriteOp.storeName)
    match usedStores.find? (fun s => !(scope.contains s)) with
    | some s => ⟨.error (.scopeViolation s scope), db, 0⟩
    | none =>
      match applyWriteOps db ops with
      | .ok db' => ⟨.ok (), db', 1⟩
      | .error e => ⟨.error (.engineError e), db, 1⟩

/-- The positional result of one queued read request. -/
inductive ReadResult where
  | value (v : Option Nat)
  | values (vs : List Nat)
  | countR (n : Nat)
deriving DecidableEq, Repr

/-- Host-engine model: answer one read request (src/readChain.ts
lines 88-101); `getAll`'s optional count truncates the matches. -/
def runReadOp (db : DB) : ReadOp → ReadResult
  | .get s k => .value (((db.storeRecords s).find? (fun e => e.1 = k)).map Prod.snd)
  | .getAll s q cnt =>
      let found := (rangeFilter q (db.storeRecords s)).map Prod.snd
      .values (match cnt with | some n => found.take n | none => found)
  | .getAllByIndex s i q =>
      .values ((rangeFilter q (db.indexRecords s i)).map Prod.snd)
  | .count s q => .countR (rangeFilter q (db.storeRecords s)).length

/-- Outcome of a read chain's `execute()`: the settlement (results aligned to
enqueue order) and how many transactions were opened; reads do not change
the connection state. -/
structure ReadExecResult where
  outcome : Except ChainError (List ReadResult)
  txOpened : Nat
deriving DecidableEq, Repr

/-- Embedding of the read chain's `execute()` (src/readChain.ts
lines 66-107): empty-queue fast path, scope check over the distinct
referenced stores, then one transaction whose requests are answered
positionally (`requests.map((r) => r.result)`). -/
def readExecute (scope : List String) (ops : List ReadOp) (db : DB) :
    ReadExecResult :=
  if ops.isEmpty then ⟨.ok [], 0⟩
  else
    let usedStores := dedupFirst [] (ops.map ReadOp.storeName)
    match usedStores.find? (fun s => !(scope.contains s)) with
    | some s => ⟨.error (.scopeViolation s scope), 0⟩
    | none => ⟨.ok (ops.map (runReadOp db)), 1⟩

/-! Completion bridge (`src/utils.ts`, `promisifyTransaction`,
lines 30-36). -/

/-- The completion events an `IDBTransaction` can fire; `error`/`abort`
carry `transaction.error`, which may be null (`none`). -/
inductive TxEvent where
  | complete
  | error (e : Option String)
  | abort (e : Option String)
deriving DecidableEq, Repr

/-- The state of the wrapping promise: pending, resolved, or rejected with
the value passed to `reject` (which is `transaction.error`, possibly null). -/
inductive PromiseState where
  | pending
  | resolved
  | rejected (e : Option String)
deriving DecidableEq, Repr

/-- What each handler installed by `promisifyTransaction` does with its
event: `oncomplete` resolves, `onerror` rejects with `transaction.error`
verbatim, `onabort` rejects with `transaction.error ?? Error('Transaction
aborted')`. -/
def handleTxEvent : TxEvent → PromiseState
  | .complete => .resolved
  | .error e => .rejected e
  | .abort e => .rejected (some (e.getD "Transaction aborted"))

/-- Host promise semantics: a settled promise ignores later resolution
attempts; a pending one settles per the fired handler. -/
def promiseStep (s : PromiseState) (ev : TxEvent) : PromiseState :=
  match s with
  | .pending => handleTxEvent ev
  | s => s

/-- The promise state after a sequence of transaction events. -/
def runTxEvents (evs : List TxEvent) : PromiseState :=
  evs.foldl promiseStep .pending

/-! Helper lemmas. -/

/-- The cursor loop with no limit collects everything after the remaining
skip budget `off - s`. -/
theorem cursorLoop_none_fst {α : Type} (f : α → α) :
    ∀ (entries : List α) (s c off : Nat),
      (cursorLoop f entries s c off none).1 = (entries.drop (off - s)).map f := by
  intro entries
  induction entries with
  | nil => intro s c off; simp [cursorLoop]
  | cons r rest ih =>
    intro s c off
    by_cases h : s < off
    · have hd : off - s = (off - (s + 1)) + 1 := by omega
      simp only [cursorLoop, if_pos h]
      rw [ih (s + 1) c off, hd]
      simp
    · have hd : off - s = 0 := by omega
      simp [cursorLoop, if_neg h, ih s (c + 1) off, hd]

/-- The cursor loop with limit `l` collects, after the remaining skip budget,
exactly the remaining collection budget `l - c`. -/
theorem cursorLoop_some_fst {α : Type} (f : α → α) :
    ∀ (entries : List α) (s c off l : Nat),
      (cursorLoop f entries s c off (some l)).1 =
        ((entries.drop (off - s)).take (l - c)).map f := by
  intro entries
  induction entries with
  | nil => intro s c off l; simp [cursorLoop]
  | cons r rest ih =>
    intro s c off l
    by_cases h : s < off
    · have hd : off - s = (off - (s + 1)) + 1 := by omega
      simp only [cursorLoop, if_pos h]
      rw [ih (s + 1) c off l, hd]
      simp
    · have hd : off - s = 0 := by omega
      by_cases hc : c < l
      · by_cases hdone : l ≤ c + 1
        · have hl : l - c = 1 := by omega
          simp [cursorLoop, if_neg h, hc, hdone, hd, hl]
        · have hl : l - c = (l - (c + 1)) + 1 := by omega
          simp [cursorLoop, if_neg h, hc, hdone, hd, ih s (c + 1) off l, hl]
      · have hl : l - c = 0 := by omega
        have hle : l ≤ c := by omega
        simp [cursorLoop, if_neg h, hc, hle, hd, hl]

/-- With a limit set, the cursor stops advancing once the limit is met: it
visits at most the remaining skip budget plus one batch of collections. -/
theorem cursorLoop_some_snd_le {α : Type} (f : α → α) :
    ∀ (entries : List α) (s c off l : Nat),
      (cursorLoop f entries s c off (some l)).2 ≤ (off - s) + max (l - c) 1 := by
  intro entries
  induction entries with
  | nil => intro s c off l; simp [cursorLoop]
  | cons r rest ih =>
    intro s c off l
    by_cases h : s < off
    · have hrec := ih (s + 1) c off l
      simp only [cursorLoop, if_pos h]
      omega
    · by_cases hc : c < l
      · by_cases hdone : l ≤ c + 1
        · simp [cursorLoop, if_neg h, hc, hdone]
          omega
        · have hrec := ih s (c + 1) off l
          simp [cursorLoop, if_neg h, hc, hdone]
          omega
      · have hle : l ≤ c := by omega
        simp [cursorLoop, if_neg h, hc, hle]

/-- A key matches an `only` range exactly when it equals its value. -/
theorem only_matchesKey (x k : Key) : (KeyRange.only x).matchesKey k = true ↔ k = x := by
  cases x with
  | num a =>
    cases k with
    | num b =>
      simp [KeyRange.only, KeyRange.matchesKey, Key.le]
      omega
    | str t => simp [KeyRange.only, KeyRange.matchesKey, Key.le]
  | str s =>
    cases k with
    | num b => simp [KeyRange.only, KeyRange.matchesKey, Key.le]
    | str t =>
      simp [KeyRange.only, KeyRange.matchesKey, Key.le]
      constructor
      · rintro ⟨h1, h2⟩
        exact String.ext (le_antisymm h2 h1)
      · rintro rfl
        exact ⟨le_refl t.data, le_refl t.data⟩

/-- Everything `dedupFirst` keeps comes from the input list. -/
theorem dedupFirst_subset (a : String) :
    ∀ (l seen : List String), a ∈ dedupFirst seen l → a ∈ l := by
  intro l
  induction l with
  | nil => intro seen h; simp [dedupFirst] at h
  | cons b rest ih =>
    intro seen h
    by_cases hb : seen.contains b
    · simp only [dedupFirst, if_pos hb] at h
      exact List.mem_cons_of_mem b (ih seen h)
    · simp only [dedupFirst, if_neg hb] at h
      rcases List.mem_cons.mp h with rfl | h'
      · exact List.mem_cons_self a rest
      · exact List.mem_cons_of_mem b (ih (b :: seen) h')

/-- An input element not yet seen is kept by `dedupFirst`. -/
theorem mem_dedupFirst (a : String) :
    ∀ (l seen : List String), a ∈ l → ¬ a ∈ seen → a ∈ dedupFirst seen l := by
  intro l
  induction l with
  | nil => intro seen h _; simp at h
  | cons b rest ih =>
    intro seen h hseen
    by_cases hb : seen.contains b
    · simp only [dedupFirst, if_pos hb]
      rcases List.mem_cons.mp h with rfl | h'
      · exact absurd (by simpa using hb) hseen
      · exact ih seen h' hseen
    · simp only [dedupFirst, if_neg hb]
      rcases List.mem_cons.mp h with rfl | h'
      · exact List.mem_cons_self a _
      · by_cases hab : a = b
        · subst hab; exact List.mem_cons_self a _
        · refine List.mem_cons_of_mem b (ih (b :: seen) h' ?_)
          intro hmem
          rcases List.mem_cons.mp hmem with h'' | h''
          · exact hab h''
          · exact hseen h''

/-- The head of `take 1` is the head of the list. -/
theorem head?_take_one {α : Type} (l : List α) :
    (l.take 1).head? = l.head? := by
  cases l <;> rfl

/-- Overlay with defaults present is the merge function itself. -/
theorem applyDefaults_some {α : Type} (f : α → α) :
    applyDefaults (some f) = f := rfl

/-- Overlay with no defaults is the identity. -/
theorem applyDefaults_none {α : Type} :
    applyDefaults (α := α) none = id := rfl

/-- With a limit set, the executor takes the cursor path and returns the
direction-ordered matches after the offset, truncated to the limit, with
the default overlay applied per record. -/
theorem executeQuery_limit_eq {α : Type} (st : QueryState) (d : Option (α → α))
    (eng : QEngine α) (L : Nat) (h : st.limitCount = some L) :
    executeQuery st d eng =
      (((if st.order = .desc then (matchingRecords st eng).reverse
          else matchingRecords st eng).drop st.offsetCount).take L).map
        (applyDefaults d) := by
  unfold executeQuery
  rw [if_pos (Or.inr (by simp [h])), h, cursorLoop_some_fst]
  simp

/-- With no limit set, the executor returns the direction-ordered matches
after the offset with the overlay applied — on the cursor path when the
offset is positive and on the bulk path otherwise. -/
theorem executeQuery_nolimit_eq {α : Type} (st : QueryState) (d : Option (α → α))
    (eng : QEngine α) (h : st.limitCount = none) :
    executeQuery st d eng =
      ((if st.order = .desc then (matchingRecords st eng).reverse
         else matchingRecords st eng).drop st.offsetCount).map
        (applyDefaults d) := by
  by_cases hoff : 0 < st.offsetCount
  · unfold executeQuery
    rw [if_pos (Or.inl hoff), h, cursorLoop_none_fst]
    simp
  · have hz : st.offsetCount = 0 := by omega
    unfold executeQuery
    rw [if_neg (by simp [h, hz])]
    rw [hz]
    simp only [List.drop_zero]
    cases d with
    | some f =>
      rw [applyDefaults_some]
      cases hord : st.order with
      | asc => simp [hord]
      | desc => simp [hord, List.map_reverse]
    | none =>
      rw [applyDefaults_none]
      cases hord : st.order with
      | asc => simp [hord]
      | desc => simp [hord]

/-- A settled promise is unaffected by any further events. -/
theorem foldl_promiseStep_settled :
    ∀ (evs : List TxEvent) (s : PromiseState), s ≠ .pending →
      evs.foldl promiseStep s = s := by
  intro evs
  induction evs with
  | nil => intro s _; rfl
  | cons ev rest ih =>
    intro s hs
    have hstep : promiseStep s ev = s := by
      cases s with
      | pending => exact absurd rfl hs
      | resolved => rfl
      | rejected e => rfl
    simp only [List.foldl, hstep]
    exact ih s hs

/-- The `only` range admits exactly the keys equal to its value, as a
boolean equation. -/
theorem only_matchesKey_eq (x k : Key) :
    (KeyRange.only x).matchesKey k = decide (k = x) := by
  by_cases h : k = x
  · simp [h, (only_matchesKey x x).mpr rfl]
  · have hf : ¬ ((KeyRange.only x).matchesKey k = true) :=
      fun hm => h ((only_matchesKey x k).mp hm)
    simp [h]
    simpa using hf

/-! Claim theorems. -/

/-- C4: a chain (read or write) with an empty queue resolves immediately —
`[]` for the read chain, no payload for the write chain — with the
connection state untouched and no transaction opened. -/
theorem spec_C4 (scope : List String) (db : DB) :
    writeExecute scope [] db = ⟨.ok (), db, 0⟩ ∧
    readExecute scope [] db = ⟨.ok [], 0⟩ :=
  ⟨rfl, rfl⟩

/-- C9: the completion bridge settles on every completion event (so no
success/error/abort path leaves the awaitable pending), never re-settles a
settled promise (resolves at most once, rejects at most once), synthesizes
the generic "Transaction aborted" failure for an abort that reports no
error, and any fired event sequence leaves the promise settled. -/
theorem spec_C9 :
    (∀ ev : TxEvent, promiseStep .pending ev ≠ .pending) ∧
    (∀ (s : PromiseState) (ev : TxEvent), s ≠ .pending → promiseStep s ev = s) ∧
    (promiseStep .pending (.abort none) = .rejected (some "Transaction aborted")) ∧
    (∀ (ev : TxEvent) (evs : List TxEvent), runTxEvents (ev :: evs) ≠ .pending) := by
  refine ⟨?_, ?_, rfl, ?_⟩
  · intro ev
    cases ev with
    | complete => simp [promiseStep, handleTxEvent]
    | error e => simp [promiseStep, handleTxEvent]
    | abort e => simp [promiseStep, handleTxEvent]
  · intro s ev hs
    cases s with
    | pending => exact absurd rfl hs
    | resolved => rfl
    | rejected e => rfl
  · intro ev evs
    have h1 : promiseStep .pending ev ≠ .pending := by
      cases ev with
      | complete => simp [promiseStep, handleTxEvent]
      | error e => simp [promiseStep, handleTxEvent]
      | abort e => simp [promiseStep, handleTxEvent]
    have : runTxEvents (ev :: evs) = promiseStep .pending ev := by
      simp only [runTxEvents, List.foldl]
      exact foldl_promiseStep_settled evs _ h1
    rw [this]
    exact h1

/-- C9 witness: a settled promise ignores a later error event, and a bare
abort rejects with the synthesized generic failure. -/
theorem spec_C9_witness :
    promiseStep .resolved (.error none) = .resolved ∧
    promiseStep .pending (.abort none) = .rejected (some "Transaction aborted") :=
  ⟨spec_C9.2.1 .resolved (.error none) (by simp), spec_C9.2.2.1⟩

/-- C2: `parseWhereCondition` resolves simultaneously-present comparison
fields by strict first-match precedence `eq` > `between` > `startsWith` >
`(gte & lte)` > `(gt & lt, both exclusive)` > `(gte & lt)` > `(gt & lte)` >
`gt` > `gte` > `lt` > `lte`, and returns no bound when no field is present;
in particular a condition with both `gte` and `lte` and no higher-precedence
field yields the inclusive bound `[gte, lte]`.  Each conjunct assumes exactly
the fields that make its precedence level the first match. -/
theorem spec_C2 (c : WhereCondition) :
    (∀ v, c.eq = some v → parseWhereCondition (.obj c) = some (KeyRange.only v)) ∧
    (∀ lo hi, c.eq = none → c.between = some (lo, hi) →
      parseWhereCondition (.obj c) = some (KeyRange.bound lo hi false false)) ∧
    (∀ p, c.eq = none → c.between = none → c.startsWith = some p →
      parseWhereCondition (.obj c) =
        some (KeyRange.bound (.str p) (.str (p ++ "\uFFFF")) false false)) ∧
    (∀ a b, c.eq = none → c.between = none → c.startsWith = none →
      c.gte = some a → c.lte = some b →
      parseWhereCondition (.obj c) = some (KeyRange.bound a b false false)) ∧
    (∀ a b, c.eq = none → c.between = none → c.startsWith = none →
      c.gt = some a → c.lt = some b → (c.gte = none ∨ c.lte = none) →
      parseWhereCondition (.obj c) = some (KeyRange.bound a b true true)) ∧
    (∀ a b, c.eq = none → c.between = none → c.startsWith = none →
      c.gte = some a → c.lt = some b → c.gt = none → c.lte = none →
      parseWhereCondition (.obj c) = some (KeyRange.bound a b false true)) ∧
    (∀ a b, c.eq = none → c.between = none → c.startsWith = none →
      c.gt = some a → c.lte = some b → c.gte = none → c.lt = none →
      parseWhereCondition (.obj c) = some (KeyRange.bound a b true false)) ∧
    (∀ a, c.eq = none → c.between = none → c.startsWith = none →
      c.gt = some a → c.lt = none → c.lte = none →
      parseWhereCondition (.obj c) = some (KeyRange.lowerBound a true)) ∧
    (∀ a, c.eq = none → c.between = none → c.startsWith = none →
      c.gte = some a → c.gt = none → c.lt = none → c.lte = none →
      parseWhereCondition (.obj c) = some (KeyRange.lowerBound a false)) ∧
    (∀ a, c.eq = none → c.between = none → c.startsWith = none →
      c.lt = some a → c.gt = none → c.gte = none →
      parseWhereCondition (.obj c) = some (KeyRange.upperBound a true)) ∧
    (∀ a, c.eq = none → c.between = none → c.startsWith = none →
      c.lte = some a → c.gt = none → c.gte = none → c.lt = none →
      parseWhereCondition (.obj c) = some (KeyRange.upperBound a false)) ∧
    (c.eq = none → c.between = none → c.startsWith = none → c.gt = none →
      c.gte = none → c.lt = none → c.lte = none →
      parseWhereCondition (.obj c) = none) := by
  rcases c with ⟨e, g, ge, l1, l2, bt, sw⟩
  refine ⟨?_, ?_, ?_, ?_, ?_, ?_, ?_, ?_, ?_, ?_, ?_, ?_⟩
  · intro v h
    simp only at h
    subst h
    simp [parseWhereCondition]
  · intro lo hi h1 h2
    simp only at h1 h2
    subst h1; subst h2
    simp [parseWhereCondition]
  · intro p h1 h2 h3
    simp only at h1 h2 h3
    subst h1; subst h2; subst h3
    simp [parseWhereCondition]
  · intro a b h1 h2 h3 h4 h5
    simp only at h1 h2 h3 h4 h5
    subst h1; subst h2; subst h3; subst h4; subst h5
    simp [parseWhereCondition]
  · intro a b h1 h2 h3 h4 h5 h6
    simp only at h1 h2 h3 h4 h5
    subst h1; subst h2; subst h3; subst h4; subst h5
    rcases h6 with h6 | h6 <;> simp only at h6 <;> subst h6
    · cases l2 <;> simp [parseWhereCondition]
    · cases ge <;> simp [parseWhereCondition]
  · intro a b h1 h2 h3 h4 h5 h6 h7
    simp only at h1 h2 h3 h4 h5 h6 h7
    subst h1; subst h2; subst h3; subst h4; subst h5; subst h6; subst h7
    simp [parseWhereCondition]
  · intro a b h1 h2 h3 h4 h5 h6 h7
    simp only at h1 h2 h3 h4 h5 h6 h7
    subst h1; subst h2; subst h3; subst h4; subst h5; subst h6; subst h7
    simp [parseWhereCondition]
  · intro a h1 h2 h3 h4 h5 h6
    simp only at h1 h2 h3 h4 h5 h6
    subst h1; subst h2; subst h3; subst h4; subst h5; subst h6
    cases ge <;> simp [parseWhereCondition]
  · intro a h1 h2 h3 h4 h5 h6 h7
    simp only at h1 h2 h3 h4 h5 h6 h7
    subst h1; subst h2; subst h3; subst h4; subst h5; subst h6; subst h7
    simp [parseWhereCondition]
  · intro a h1 h2 h3 h4 h5 h6
    simp only at h1 h2 h3 h4 h5 h6
    subst h1; subst h2; subst h3; subst h4; subst h5; subst h6
    cases l2 <;> simp [parseWhereCondition]
  · intro a h1 h2 h3 h4 h5 h6 h7
    simp only at h1 h2 h3 h4 h5 h6 h7
    subst h1; subst h2; subst h3; subst h4; subst h5; subst h6; subst h7
    simp [parseWhereCondition]
  · intro h1 h2 h3 h4 h5 h6 h7
    simp only at h1 h2 h3 h4 h5 h6 h7
    subst h1; subst h2; subst h3; subst h4; subst h5; subst h6; subst h7
    simp [parseWhereCondition]

/-- C2 witness: the condition `{gte: 1, lte: 5}` (no higher-precedence
field) translates to the inclusive bound `[1, 5]`. -/
theorem spec_C2_witness :
    parseWhereCondition (.obj { gte := some (.num 1), lte := some (.num 5) }) =
      some (KeyRange.bound (.num 1) (.num 5) false false) :=
  (spec_C2 { gte := some (.num 1), lte := some (.num 5) }).2.2.2.1
    (.num 1) (.num 5) rfl rfl rfl rfl rfl

/-- C6: with offset 0 and no limit, `findAll` in descending order is exactly
the reverse of `findAll` in ascending order — the bulk `getAll` path is
taken and the descending result is the ascending sequence reversed
client-side. -/
theorem spec_C6 {α : Type} (st : QueryState) (d : Option (α → α)) (eng : QEngine α)
    (hoff : st.offsetCount = 0) (hlim : st.limitCount = none) :
    findAllQ (orderBySel st .desc) d eng =
      (findAllQ (orderBySel st .asc) d eng).reverse := by
  unfold findAllQ executeQuery orderBySel
  simp [hoff, hlim, matchingRecords, sourceEntries]

/-- C6 witness: over a concrete two-record store, descending `findAll` is
the reverse of ascending `findAll`, which is `[10, 20]`. -/
theorem spec_C6_witness :
    (findAllQ (orderBySel ⟨none, false, none, .asc, none, 0⟩ .desc) none
        ⟨[(.num 1, 10), (.num 2, 20)], fun _ => []⟩ =
      (findAllQ (orderBySel ⟨none, false, none, .asc, none, 0⟩ .asc) none
        ⟨[(.num 1, 10), (.num 2, 20)], fun _ => []⟩).reverse) ∧
    findAllQ (orderBySel ⟨none, false, none, .asc, none, 0⟩ .asc) none
        (⟨[(.num 1, 10), (.num 2, 20)], fun _ => []⟩ : QEngine Nat) = [10, 20] :=
  ⟨spec_C6 _ _ _ rfl rfl, by decide⟩

/-- C8: `startsWith(p)` yields the inclusive bound `[p, p ++ U+FFFF]`, both
in the fluent builder's range selector and in the declarative translator
(when no higher-precedence field is present). -/
theorem spec_C8 (p : String) (b : IndexBuilderState) (c : WhereCondition) :
    ((startsWithSel b p).range =
        some (KeyRange.bound (.str p) (.str (p ++ "\uFFFF")) false false)) ∧
    (c.eq = none → c.between = none → c.startsWith = some p →
      parseWhereCondition (.obj c) =
        some (KeyRange.bound (.str p) (.str (p ++ "\uFFFF")) false false)) := by
  refine ⟨rfl, ?_⟩
  intro h1 h2 h3
  rcases c with ⟨e, g, ge, l1, l2, bt, sw⟩
  simp only at h1 h2 h3
  subst h1; subst h2; subst h3
  simp [parseWhereCondition]

/-- C8 witness: `startsWith "ab"` produces the inclusive bound
`["ab", "ab\uFFFF"]` in both entry points. -/
theorem spec_C8_witness :
    ((startsWithSel ⟨none, true⟩ "ab").range =
        some (KeyRange.bound (.str "ab") (.str ("ab" ++ "\uFFFF")) false false)) ∧
    (parseWhereCondition (.obj { startsWith := some "ab" }) =
        some (KeyRange.bound (.str "ab") (.str ("ab" ++ "\uFFFF")) false false)) ∧
    ("ab" ++ "\uFFFF" : String) = "ab\uFFFF" :=
  ⟨(spec_C8 "ab" ⟨none, true⟩ { startsWith := some "ab" }).1,
   (spec_C8 "ab" ⟨none, true⟩ { startsWith := some "ab" }).2 rfl rfl rfl,
   by decide⟩

/-- C7: `count()` reads only the plan's index selection and resolved bound —
any order, limit, or offset on the plan leaves the count unchanged — and
after an `equals(x)` range selection (with any limit/offset supplied) it
equals the number of source records whose indexed key equals `x`. -/
theorem spec_C7 {α : Type} :
    (∀ (st : QueryState) (o : SortOrder) (l : Option Nat) (n : Nat)
        (eng : QEngine α),
      countQ { st with order := o, limitCount := l, offsetCount := n } eng =
        countQ st eng) ∧
    (∀ (b : IndexBuilderState) (x : Key) (L O : Nat) (eng : QEngine α),
      countQ (offsetSel (limitSel (equalsSel b x) L) O) eng =
        ((sourceEntries (equalsSel b x) eng).filter
          (fun e => decide (e.1 = x))).length) := by
  constructor
  · intro st o l n eng
    rfl
  · intro b x L O eng
    have hcong :
        (sourceEntries (equalsSel b x) eng).filter
            (fun e => (KeyRange.only x).matchesKey e.1) =
          (sourceEntries (equalsSel b x) eng).filter (fun e => decide (e.1 = x)) :=
      List.filter_congr (fun e _ => only_matchesKey_eq x e.1)
    calc countQ (offsetSel (limitSel (equalsSel b x) L) O) eng
        = ((sourceEntries (equalsSel b x) eng).filter
            (fun e => (KeyRange.only x).matchesKey e.1)).length := rfl
      _ = _ := by rw [hcong]

/-- C3: with limit `L` set, the executor takes the cursor path, whose result
is exactly "skip the first `offsetCount` direction-ordered matches, then
collect `L`"; consequently over `N` matches the result length is `L` when
`offset + L ≤ N`, `0` when `N ≤ offset`, and `N - offset` when
`offset < N < offset + L`. -/
theorem spec_C3 {α : Type} (st : QueryState) (d : Option (α → α)) (eng : QEngine α)
    (L : Nat) (hlim : st.limitCount = some L) :
    (findAllQ st d eng =
      (((if st.order = .desc then (matchingRecords st eng).reverse
          else matchingRecords st eng).drop st.offsetCount).take L).map
        (applyDefaults d)) ∧
    (st.offsetCount + L ≤ (matchingRecords st eng).length →
      (findAllQ st d eng).length = L) ∧
    ((matchingRecords st eng).length ≤ st.offsetCount →
      (findAllQ st d eng).length = 0) ∧
    (st.offsetCount < (matchingRecords st eng).length →
      (matchingRecords st eng).length < st.offsetCount + L →
      (findAllQ st d eng).length =
        (matchingRecords st eng).length - st.offsetCount) := by
  have h1 : findAllQ st d eng =
      (((if st.order = .desc then (matchingRecords st eng).reverse
          else matchingRecords st eng).drop st.offsetCount).take L).map
        (applyDefaults d) := executeQuery_limit_eq st d eng L hlim
  have hlen : (if st.order = .desc then (matchingRecords st eng).reverse
      else matchingRecords st eng).length = (matchingRecords st eng).length := by
    split <;> simp
  refine ⟨h1, ?_, ?_, ?_⟩
  · intro h
    rw [h1]
    simp only [List.length_map, List.length_take, List.length_drop, hlen]
    omega
  · intro h
    rw [h1]
    simp only [List.length_map, List.length_take, List.length_drop, hlen]
    omega
  · intro h h'
    rw [h1]
    simp only [List.length_map, List.length_take, List.length_drop, hlen]
    omega

/-- C3 witness: five matching records, limit 2, offset 1 — the three length
cases instantiated where `O + L ≤ N` gives result length 2. -/
theorem spec_C3_witness :
    1 + 2 ≤ (matchingRecords ⟨none, false, none, .asc, some 2, 1⟩
        (⟨[(.num 1, 30), (.num 2, 50), (.num 3, 80), (.num 4, 100), (.num 5, 200)],
          fun _ => []⟩ : QEngine Nat)).length ∧
    (findAllQ ⟨none, false, none, .asc, some 2, 1⟩ none
        (⟨[(.num 1, 30), (.num 2, 50), (.num 3, 80), (.num 4, 100), (.num 5, 200)],
          fun _ => []⟩ : QEngine Nat)).length = 2 :=
  ⟨by decide,
   (spec_C3 ⟨none, false, none, .asc, some 2, 1⟩ none
      ⟨[(.num 1, 30), (.num 2, 50), (.num 3, 80), (.num 4, 100), (.num 5, 200)],
        fun _ => []⟩ 2 rfl).2.1 (by decide)⟩

/-- C10: `find()` forces the limit to 1 (overriding any limit already on the
plan), resolves with the head of what an unlimited `findAll` over the same
bound, order, and offset would return, and never visits more than
`offset + 1` cursor records. -/
theorem spec_C10 {α : Type} (st : QueryState) (d : Option (α → α))
    (eng : QEngine α) :
    (∀ l0, findQ { st with limitCount := l0 } d eng = findQ st d eng) ∧
    (findQ st d eng =
      (executeQuery { st with limitCount := none } d eng).head?) ∧
    (findVisits st d eng ≤ st.offsetCount + 1) := by
  refine ⟨fun l0 => rfl, ?_, ?_⟩
  · show (executeQuery { st with limitCount := some 1 } d eng).head? = _
    rw [executeQuery_limit_eq { st with limitCount := some 1 } d eng 1 rfl,
        executeQuery_nolimit_eq { st with limitCount := none } d eng rfl]
    rw [List.head?_map, List.head?_map, head?_take_one]
    rfl
  · unfold findVisits
    have := cursorLoop_some_snd_le (applyDefaults d)
      (if ({ st with limitCount := some 1 } : QueryState).order = .desc then
          (matchingRecords { st with limitCount := some 1 } eng).reverse
        else matchingRecords { st with limitCount := some 1 } eng)
      0 0 st.offsetCount 1
    simpa using this

/-- C1: a chain (read or write) whose queue references a store outside its
declared scope fails with a scope-violation error naming an offending
referenced store and the declared scope, with no transaction opened and the
connection state untouched — so no queued write has any observable
effect. -/
theorem spec_C1 :
    (∀ (scope : List String) (ops : List WriteOp) (db : DB),
      (∃ op ∈ ops, scope.contains op.storeName = false) →
      ∃ s, s ∈ ops.map WriteOp.storeName ∧ scope.contains s = false ∧
        writeExecute scope ops db = ⟨.error (.scopeViolation s scope), db, 0⟩) ∧
    (∀ (scope : List String) (ops : List ReadOp) (db : DB),
      (∃ op ∈ ops, scope.contains op.storeName = false) →
      ∃ s, s ∈ ops.map ReadOp.storeName ∧ scope.contains s = false ∧
        readExecute scope ops db = ⟨.error (.scopeViolation s scope), 0⟩) := by
  constructor
  · rintro scope ops db ⟨op, hop, hsc⟩
    have hne : ops.isEmpty = false := by
      cases ops with
      | nil => simp at hop
      | cons a l => rfl
    have hmem : op.storeName ∈ ops.map WriteOp.storeName :=
      List.mem_map_of_mem _ hop
    have hm2 : op.storeName ∈ dedupFirst [] (ops.map WriteOp.storeName) :=
      mem_dedupFirst _ _ _ hmem (by simp)
    have hsome : ((dedupFirst [] (ops.map WriteOp.storeName)).find?
        (fun s => !(scope.contains s))).isSome := by
      rw [List.find?_isSome]
      exact ⟨op.storeName, hm2, by simpa using hsc⟩
    obtain ⟨s, hfind⟩ := Option.isSome_iff_exists.mp hsome
    have hps := List.find?_some hfind
    have hsmem : s ∈ dedupFirst [] (ops.map WriteOp.storeName) :=
      List.mem_of_find?_eq_some hfind
    refine ⟨s, dedupFirst_subset s _ _ hsmem, by simpa using hps, ?_⟩
    simp only [writeExecute, hne, Bool.false_eq_true, if_false]
    rw [hfind]
  · rintro scope ops db ⟨op, hop, hsc⟩
    have hne : ops.isEmpty = false := by
      cases ops with
      | nil => simp at hop
      | cons a l => rfl
    have hmem : op.storeName ∈ ops.map ReadOp.storeName :=
      List.mem_map_of_mem _ hop
    have hm2 : op.storeName ∈ dedupFirst [] (ops.map ReadOp.storeName) :=
      mem_dedupFirst _ _ _ hmem (by simp)
    have hsome : ((dedupFirst [] (ops.map ReadOp.storeName)).find?
        (fun s => !(scope.contains s))).isSome := by
      rw [List.find?_isSome]
      exact ⟨op.storeName, hm2, by simpa using hsc⟩
    obtain ⟨s, hfind⟩ := Option.isSome_iff_exists.mp hsome
    have hps := List.find?_some hfind
    have hsmem : s ∈ dedupFirst [] (ops.map ReadOp.storeName) :=
      List.mem_of_find?_eq_some hfind
    refine ⟨s, dedupFirst_subset s _ _ hsmem, by simpa using hps, ?_⟩
    simp only [readExecute, hne, Bool.false_eq_true, if_false]
    rw [hfind]

/-- C1 witness: a write chain scoped to `users` that queues a `put` into
`posts` rejects with the scope violation naming `posts` and the scope, with
the store untouched and no transaction opened. -/
theorem spec_C1_witness :
    writeExecute ["users"] [.put "posts" 1 none] ⟨[("users", [])], []⟩ =
      ⟨.error (.scopeViolation "posts" ["users"]), ⟨[("users", [])], []⟩, 0⟩ := by
  obtain ⟨s, hs, hsc, heq⟩ :=
    spec_C1.1 ["users"] [.put "posts" 1 none] ⟨[("users", [])], []⟩
      ⟨.put "posts" 1 none, by simp, by decide⟩
  have hs' : s = "posts" := by simpa [WriteOp.storeName] using hs
  rw [hs'] at heq
  exact heq

/-- C5 counterexample: the chains carry no consumed flag.  Re-invoking
`execute()` on an already-consumed write chain (same queue, post-commit
state) succeeds again and opens a second transaction instead of failing. -/
theorem spec_C5_counterexample :
    (writeExecute ["users"] [.put "users" 7 (some (.num 1))]
        (writeExecute ["users"] [.put "users" 7 (some (.num 1))]
          ⟨[("users", [])], []⟩).db).outcome = .ok () ∧
    (writeExecute ["users"] [.put "users" 7 (some (.num 1))]
        (writeExecute ["users"] [.put "users" 7 (some (.num 1))]
          ⟨[("users", [])], []⟩).db).txOpened = 1 := by
  decide

/-- C5 (amended): the chains are not guarded by a consumed flag — every
invocation of `execute()` on a nonempty in-scope queue, a repeated one
included, opens a transaction and re-runs the queued operations (settling
with success or an engine error, never a reuse failure). -/
theorem spec_C5 :
    (∀ (scope : List String) (ops : List WriteOp) (db : DB),
      ops ≠ [] → (∀ op ∈ ops, scope.contains op.storeName = true) →
      (writeExecute scope ops db).txOpened = 1 ∧
      ((writeExecute scope ops db).outcome = .ok () ∨
        ∃ m, (writeExecute scope ops db).outcome = .error (.engineError m))) ∧
    (∀ (scope : List String) (ops : List ReadOp) (db : DB),
      ops ≠ [] → (∀ op ∈ ops, scope.contains op.storeName = true) →
      readExecute scope ops db = ⟨.ok (ops.map (runReadOp db)), 1⟩) := by
  constructor
  · intro scope ops db hne hscope
    have hemp : ops.isEmpty = false := by
      cases ops with
      | nil => exact absurd rfl hne
      | cons a l => rfl
    have hfindn : ((dedupFirst [] (ops.map WriteOp.storeName)).find?
        (fun s => !(scope.contains s))) = none := by
      rw [List.find?_eq_none]
      intro x hx
      obtain ⟨op, hop, rfl⟩ := List.mem_map.mp (dedupFirst_subset x _ _ hx)
      simpa using hscope op hop
    cases hap : applyWriteOps db ops with
    | ok db' =>
      have hrun : writeExecute scope ops db = ⟨.ok (), db', 1⟩ := by
        simp only [writeExecute, hemp, Bool.false_eq_true, if_false]
        rw [hfindn, hap]
      rw [hrun]
      exact ⟨rfl, Or.inl rfl⟩
    | error e =>
      have hrun : writeExecute scope ops db = ⟨.error (.engineError e), db, 1⟩ := by
        simp only [writeExecute, hemp, Bool.false_eq_true, if_false]
        rw [hfindn, hap]
      rw [hrun]
      exact ⟨rfl, Or.inr ⟨e, rfl⟩⟩
  · intro scope ops db hne hscope
    have hemp : ops.isEmpty = false := by
      cases ops with
      | nil => exact absurd rfl hne
      | cons a l => rfl
    have hfindn : ((dedupFirst [] (ops.map ReadOp.storeName)).find?
        (fun s => !(scope.contains s))) = none := by
      rw [List.find?_eq_none]
      intro x hx
      obtain ⟨op, hop, rfl⟩ := List.mem_map.mp (dedupFirst_subset x _ _ hx)
      simpa using hscope op hop
    simp only [readExecute, hemp, Bool.false_eq_true, if_false]
    rw [hfindn]

/-- C5 witness: a second `execute()` of the same one-`put` chain against the
post-commit state opens a transaction and settles. -/
theorem spec_C5_witness :
    (writeExecute ["users"] [.put "users" 7 (some (.num 1))]
        ⟨[("users", [(.num 1, 7)])], []⟩).txOpened = 1 ∧
    ((writeExecute ["users"] [.put "users" 7 (some (.num 1))]
        ⟨[("users", [(.num 1, 7)])], []⟩).outcome = .ok () ∨
      ∃ m, (writeExecute ["users"] [.put "users" 7 (some (.num 1))]
        ⟨[("users", [(.num 1, 7)])], []⟩).outcome = .error (.engineError m)) :=
  spec_C5.1 ["users"] [.put "users" 7 (some (.num 1))]
    ⟨[("users", [(.num 1, 7)])], []⟩ (by simp) (by decide)

end BrowserDB
